import Mathlib

/-!
Verification of the image degradation engine of scripts/test_degradation.py
and of the confusion-matrix metric computation of scripts/analyze_results.py.

The numpy float arrays are embedded as functions from pixel coordinates to
exact rationals; float arithmetic is modelled by exact arithmetic over the
rationals.  External library calls are parameters of the embedding:
cv2.filter2D is an arbitrary function filt from a kernel and an image to an
image, the cv2.ellipse rasterization is an arbitrary membership predicate
region, the Euclidean and elliptical distance arrays of
create_gradient_mask (which involve irrational square roots) are arbitrary
rational fields distImg and distEll, the trigonometric values cos and sin
of the sampled angles are arbitrary rationals constrained where needed by
cos_r^2 + sin_r^2 = 1, and each np.random draw is an explicit input.
All theorems quantify over these parameters, so they hold for every value
the external libraries could supply.
-/

namespace FPT

/-- A pixel coordinate (row, column), indexing a numpy array of shape h by w. -/
abbrev Pix : Type := ℕ × ℕ

/-- A single-channel rational-valued image (one channel of a float array;
the degradation code treats each of the 3 channels identically). -/
abbrev Img : Type := Pix → ℚ

/-- np.clip(x, lo, hi) = minimum(maximum(x, lo), hi); in particular it
returns hi when lo exceeds hi, as numpy documents. -/
def npClip (x lo hi : ℚ) : ℚ := min (max x lo) hi

/-- The int()/astype conversion of Python and numpy on a float value:
truncation toward zero. -/
def truncQ (q : ℚ) : ℤ := if 0 ≤ q then ⌊q⌋ else ⌈q⌉

/-- np.clip on integer values, same minimum-then-maximum order as npClip. -/
def npClipInt (x lo hi : ℤ) : ℤ := min (max x lo) hi

/-- int(np.sqrt(q)) for q ≥ 0: the floor of the square root of a rational.
For q ≥ 0 the floor of the real square root of q equals Nat.sqrt of the
floor of q. -/
def floorSqrtQ (q : ℚ) : ℕ := Nat.sqrt (⌊q⌋.toNat)

/-- The IEEE double constant np.pi as the 16-significant-digit rational the
float computations of the scripts round it to. -/
def np_pi : ℚ := 3141592653589793 / 1000000000000000

/-- Row-major list of the pixel coordinates of an h by w image. -/
def pixels (h w : ℕ) : List Pix :=
  (List.range h).flatMap fun y => (List.range w).map fun x => (y, x)

/-- Minimum of a list of rationals (0 for the empty list, which the code
never queries: .min() of an empty numpy selection is an error the scripts
guard against with the ellipse_region.any() test). -/
def qmin (l : List ℚ) : ℚ :=
  match l with
  | [] => 0
  | x :: t => t.foldl min x

/-- Maximum of a list of rationals (0 for the empty list). -/
def qmax (l : List ℚ) : ℚ :=
  match l with
  | [] => 0
  | x :: t => t.foldl max x

/-- smoothstep (test_degradation.py lines 51 to 57): clip x to [0, 1],
then return x * x * (3 - 2 * x). -/
def smoothstep (x : ℚ) : ℚ :=
  let y := npClip x 0 1
  y * y * (3 - 2 * y)

/-! ## create_motion_blur_kernel (test_degradation.py lines 14 to 48)

dx and dy stand for the float values cos(angle_rad) and -sin(angle_rad)
computed at lines 32 and 33; they are parameters because cosine of an
arbitrary angle is irrational. -/

/-- Whether the line-drawing loop of lines 36 to 42 writes a 1.0 into the
kernel cell p = (row y, column x): some step i with 0 ≤ i < size lands on
that in-bounds cell, where x = int(center + (i - center) * dx) and
y = int(center + (i - center) * dy), center = size / 2 rounded down. -/
def kernelHit (size : ℕ) (dx dy : ℚ) (p : Pix) : Bool :=
  (List.range size).any fun i =>
    let center : ℤ := (size : ℤ) / 2
    let offset : ℤ := (i : ℤ) - center
    let x := truncQ ((center : ℚ) + (offset : ℚ) * dx)
    let y := truncQ ((center : ℚ) + (offset : ℚ) * dy)
    decide (0 ≤ x ∧ x < (size : ℤ) ∧ 0 ≤ y ∧ y < (size : ℤ) ∧
      ((p.2 : ℤ) = x ∧ (p.1 : ℤ) = y))

/-- The kernel before normalization: 1.0 where the discretized line passes,
0.0 elsewhere (all cells outside the size by size square are 0). -/
def kernelRaw (size : ℕ) (dx dy : ℚ) : Img :=
  fun p => if kernelHit size dx dy p then 1 else 0

/-- kernel.sum() over the size by size grid. -/
def kernelSum (size : ℕ) (dx dy : ℚ) : ℚ :=
  ((pixels size size).map (kernelRaw size dx dy)).sum

/-- create_motion_blur_kernel: the drawn line, divided by its sum when the
sum is positive (lines 44 to 46). -/
def create_motion_blur_kernel (size : ℕ) (dx dy : ℚ) : Img :=
  if 0 < kernelSum size dx dy then
    fun p => kernelRaw size dx dy p / kernelSum size dx dy
  else kernelRaw size dx dy

/-! ## The progressive blur compositor (test_degradation.py lines 315 to 341) -/

/-- The kernel sizes of line 322: blur_levels = [3, 6, ..., 36]. -/
def blur_levels : List ℕ := [3, 6, 9, 12, 15, 18, 21, 24, 27, 30, 33, 36]

/-- The per-level blend weight of lines 327 to 331: level_min = i / n,
level_max = (i + 1) / n, weight = clip((g - level_min) / (level_max -
level_min), 0, 1), with n = len(blur_levels). -/
def level_mask (g : ℚ) (i n : ℕ) : ℚ :=
  let level_min : ℚ := (i : ℚ) / (n : ℚ)
  let level_max : ℚ := ((i : ℚ) + 1) / (n : ℚ)
  npClip ((g - level_min) / (level_max - level_min)) 0 1

/-- One iteration of the blur loop (lines 325 to 339) as a fold step: given
the running result and the pair ik = (level index, kernel size), blend the
result with blurOf (kernel size) using the level weight. -/
def blendStep (g : Img) (n : ℕ) (blurOf : ℕ → Img) (result : Img) (ik : ℕ × ℕ) : Img :=
  fun p =>
    result p * (1 - level_mask (g p) ik.1 n) + blurOf ik.2 p * level_mask (g p) ik.1 n

/-- The full blur loop: fold the blend step over enumerate(blur_levels),
starting from the blend base.  Each blurred image is filt applied to the
kernel of that level and to image, the ORIGINAL clean input of
apply_elliptical_blur (line 335 convolves image, not the accumulator and
not the noise-injected base). -/
def composite (filt : Img → Img → Img) (image base g : Img) (dx dy : ℚ) : Img :=
  blur_levels.enum.foldl
    (blendStep g blur_levels.length
      fun k => filt (create_motion_blur_kernel k dx dy) image) base

/-- Lines 315 to 319: the accumulator starts from the input image, replaced
by the noise-injected image when add_noise_flag is set.  image and noisy are
uint8-valued; the copy is promoted to float. -/
def blend_base (image noisy : Pix → ℕ) (nf : Bool) : Img :=
  if nf then (fun p => (noisy p : ℚ)) else (fun p => (image p : ℚ))

/-- Lines 315 to 341 end to end: run the compositor on the blend base and
quantize the accumulator to 8 bit (line 341, astype(np.uint8), truncation;
all values reached here are nonnegative). -/
def apply_blur_pipeline (filt : Img → Img → Img) (image noisy : Pix → ℕ) (nf : Bool)
    (g : Img) (dx dy : ℚ) : Pix → ℤ :=
  fun p => truncQ (composite filt (fun q => (image q : ℚ)) (blend_base image noisy nf) g dx dy p)

/-! ## create_gradient_mask (test_degradation.py lines 60 to 170)

region models mask > 0 after the cv2.ellipse rasterization of line 82;
distImg models the Euclidean distance array of lines 92 to 95 and distEll
the normalized elliptical distance array of lines 106 to 114 (both involve
irrational square roots, so they are parameters of the embedding). -/

/-- The pixels of the h by w grid inside the rasterized ellipse
(ellipse_region of line 126). -/
def regionPixels (h w : ℕ) (region : Pix → Bool) : List Pix :=
  (pixels h w).filter region

/-- Min-max normalization with the degenerate-range fallback of lines 134
to 137 and 144 to 147: (d - lo) / (hi - lo) when hi exceeds lo, else the
fallback constant. -/
def minmaxNorm (lo hi fallback d : ℚ) : ℚ :=
  if lo < hi then (d - lo) / (hi - lo) else fallback

/-- Lines 130 to 137: distance from the image center, min-max normalized
over the ellipse pixels, falling back to the constant 0.5 when all those
distances coincide. -/
def radial_norm_field (h w : ℕ) (distImg : Img) (region : Pix → Bool) : Img :=
  let vals := (regionPixels h w region).map distImg
  fun p => minmaxNorm (qmin vals) (qmax vals) (1 / 2) (distImg p)

/-- Lines 140 to 147: elliptical distance, min-max normalized over the
ellipse pixels, falling back to the constant 0 when all those distances
coincide. -/
def ellipse_norm_field (h w : ℕ) (distEll : Img) (region : Pix → Bool) : Img :=
  let vals := (regionPixels h w region).map distEll
  fun p => minmaxNorm (qmin vals) (qmax vals) 0 (distEll p)

/-- Line 159: the combined field, the normalized radial field times one
minus the smoothstepped normalized elliptical field. -/
def grad_combined (h w : ℕ) (distImg distEll : Img) (region : Pix → Bool) : Img :=
  fun p => radial_norm_field h w distImg region p
    * (1 - smoothstep (ellipse_norm_field h w distEll region p))

/-- Lines 162 and 163: divide the combined field by its maximum over the
ellipse pixels when that maximum is positive. -/
def grad_renorm (h w : ℕ) (distImg distEll : Img) (region : Pix → Bool) : Img :=
  fun p =>
    if 0 < qmax ((regionPixels h w region).map (grad_combined h w distImg distEll region))
    then grad_combined h w distImg distEll region p
      / qmax ((regionPixels h w region).map (grad_combined h w distImg distEll region))
    else grad_combined h w distImg distEll region p

/-- create_gradient_mask, gradient output (lines 124 to 170): zero outside
the rasterized ellipse; inside it, the renormalized combined field clipped
to [0.05, 1] (lines 165 to 168).  When no pixel is inside the ellipse the
gradient stays all zero (the ellipse_region.any() guard of line 128).
The two other outputs of the Python function are debug visualizations that
no claim depends on. -/
def create_gradient_mask (h w : ℕ) (distImg distEll : Img) (region : Pix → Bool) : Img :=
  fun p =>
    if (regionPixels h w region).isEmpty then 0
    else if region p then npClip (grad_renorm h w distImg distEll region p) (5 / 100) 1
    else 0

/-! ## add_noise (test_degradation.py lines 173 to 216)

The Gaussian draws (np.random.normal, line 190) and the salt and pepper
coordinate draws (np.random.randint, lines 199 and 207) are explicit
inputs.  The fancy-indexing assignments of lines 201 and 209 write 255,
respectively 0, into every listed coordinate pair of the zipped row and
column arrays, all channels at once. -/

inductive NoiseType
  | gaussian
  | salt_pepper
  | mixed
deriving DecidableEq

/-- Whether the Gaussian branch of line 187 runs. -/
def useGaussian : NoiseType → Bool
  | .gaussian => true
  | .mixed => true
  | .salt_pepper => false

/-- Whether the salt and pepper branch of line 193 runs. -/
def useSaltPepper : NoiseType → Bool
  | .salt_pepper => true
  | .mixed => true
  | .gaussian => false

/-- Line 189: sigma = 5 + intensity * 5. -/
def noise_sigma (intensity : ℚ) : ℚ := 5 + intensity * 5

/-- Line 195: amount = 0.005 * intensity. -/
def noise_amount (intensity : ℚ) : ℚ := 5 / 1000 * intensity

/-- Lines 198 and 206: num_salt = num_pepper = int(amount * image.size),
where image.size is the total numpy element count h * w * channels
(3 * h * w for the 3-channel images of the pipeline), truncated by int(). -/
def num_salt (intensity : ℚ) (sz : ℕ) : ℕ :=
  (truncQ (noise_amount intensity * (sz : ℚ))).toNat

/-- Sequential assignment of the value v at each coordinate of the list
(later writes win, which matters only across the salt and pepper passes
since each pass writes one constant). -/
def setPixels (img : Img) (coords : List Pix) (v : ℚ) : Img :=
  coords.foldl (fun im c => fun p => if p = c then v else im p) img

/-- add_noise end to end on one channel: float promotion (line 185), the
Gaussian addition (lines 187 to 191), the salt pass then the pepper pass
(lines 193 to 211), and the final clip to [0, 255] with uint8 requantization
(line 214). -/
def add_noise (img : Pix → ℕ) (nt : NoiseType) (gaussDraws : Img)
    (salt pepper : List Pix) : Pix → ℕ :=
  let noisy0 : Img := fun p => (img p : ℚ)
  let noisy1 : Img := if useGaussian nt then (fun p => noisy0 p + gaussDraws p) else noisy0
  let noisy2 : Img :=
    if useSaltPepper nt then setPixels (setPixels noisy1 salt 255) pepper 0 else noisy1
  fun p => (truncQ (npClip (noisy2 p) 0 255)).toNat

/-! ## The elliptical region sampler (test_degradation.py lines 234 to 295)

s stands for the float np.sqrt(1 - eccentricity ** 2), pi for np.pi, cos_r
and sin_r for np.cos(radial_angle) and np.sin(radial_angle) of the uniform
random direction, and u in [0, 1) for the np.random.uniform draw of line
288 rescaled to dist = min + u * (max - min). -/

/-- Line 246: a = int(np.sqrt(ellipse_area / (np.pi * np.sqrt(1 - e^2)))). -/
def ellipse_a (pi s A : ℚ) : ℕ := floorSqrtQ (A / (pi * s))

/-- Line 247: b = int(a * np.sqrt(1 - e^2)). -/
def ellipse_b (pi s A : ℚ) : ℕ := (truncQ ((ellipse_a pi s A : ℚ) * s)).toNat

/-- Lines 267 to 279: the feasibility bound for the ellipse center along
one axis.  none models float(inf): the direction cosine is within the 1e-6
guard of zero, so this axis never binds. -/
def axis_max_dist (len margin center : ℕ) (c : ℚ) : Option ℚ :=
  if 1 / 1000000 < c then some (((len : ℚ) - (margin : ℚ) - (center : ℚ)) / c)
  else if c < -(1 / 1000000) then some (((margin : ℚ) - (center : ℚ)) / c)
  else none

/-- Line 281: min(abs(max_dist_x), abs(max_dist_y)) with inf absorbing:
abs of inf is inf and min picks the finite bound.  The none, none case is
unreachable because cos and sin of one angle never both vanish; its value 0
is never exercised by any theorem below. -/
def optAbsMin : Option ℚ → Option ℚ → ℚ
  | some x, some y => min |x| |y|
  | some x, none => |x|
  | none, some y => |y|
  | none, none => 0

/-- The outputs of the region sampling part of apply_elliptical_blur. -/
structure SamplerOut where
  a : ℕ
  b : ℕ
  margin : ℕ
  minD : ℚ
  maxD : ℚ
  dist : ℚ
  center_x : ℤ
  center_y : ℤ

/-- Lines 234 to 295: semi-axes from the requested area and eccentricity,
minimum offset 80 + b (line 252), margin = max(a, b) (line 256), the
per-axis feasibility bounds combined at line 281, the offset draw with the
clamp-to-maximum fallback of lines 284 to 288, the int() truncation of the
center coordinates (lines 290 and 291) and their np.clip to
[margin, dimension - margin] (lines 294 and 295). -/
def sample_region (w h : ℕ) (area_percent s pi cos_r sin_r u : ℚ) : SamplerOut :=
  let img_cx : ℕ := w / 2
  let img_cy : ℕ := h / 2
  let A : ℚ := ((h : ℚ) * (w : ℚ)) * area_percent
  let a := ellipse_a pi s A
  let b := ellipse_b pi s A
  let minD : ℚ := 80 + (b : ℚ)
  let margin := max a b
  let mdx := axis_max_dist w margin img_cx cos_r
  let mdy := axis_max_dist h margin img_cy sin_r
  let maxD := optAbsMin mdx mdy
  let dist := if maxD < minD then maxD else minD + u * (maxD - minD)
  let cx := npClipInt (truncQ ((img_cx : ℚ) + dist * cos_r)) (margin : ℤ) ((w : ℤ) - (margin : ℤ))
  let cy := npClipInt (truncQ ((img_cy : ℚ) + dist * sin_r)) (margin : ℤ) ((h : ℤ) - (margin : ℤ))
  ⟨a, b, margin, minD, maxD, dist, cx, cy⟩

/-! ## calculate_metrics (analyze_results.py lines 81 to 140) -/

/-- The metrics dictionary built by ResultsAnalyzer.calculate_metrics. -/
structure Metrics where
  conclusivo : ℕ
  identificou : ℕ
  verdadeiro_positivo : ℕ
  verdadeiro_negativo : ℕ
  falso_positivo : ℕ
  falso_negativo : ℕ
deriving DecidableEq

/-- calculate_metrics: all counts zero for a non-conclusive response (lines
109 to 111); otherwise identificou reflects has_match when present (lines
114 and 115), and exactly one of TP, FP, FN, TN is set by the branching of
lines 118 to 138.  A None has_match is falsy in the Python if, hence
treated as claiming no match; index comparison is Python ==, under which
None equals None. -/
def calculate_metrics (has_same_source : Bool) (true_match_index : Option ℤ)
    (conclusive : Bool) (has_match : Option Bool) (matched_image_index : Option ℤ) : Metrics :=
  if conclusive = false then ⟨0, 0, 0, 0, 0, 0⟩
  else
    let identificou : ℕ := match has_match with | none => 0 | some b => if b then 1 else 0
    let claimed : Bool := match has_match with | some true => true | _ => false
    if has_same_source then
      if claimed then
        if matched_image_index = true_match_index then ⟨1, identificou, 1, 0, 0, 0⟩
        else ⟨1, identificou, 0, 0, 1, 0⟩
      else ⟨1, identificou, 0, 0, 0, 1⟩
    else
      if claimed then ⟨1, identificou, 0, 0, 1, 0⟩
      else ⟨1, identificou, 0, 1, 0, 0⟩

/-! ## Closed-form combinators for the compositor

specWeight, specKeep and specMix spell out, in the words of the
specification, the blend weight clip((gradient - i/N) / (1/N), 0, 1) for
N = 12 and the closed form of the accumulator: the base image keeps the
product of (1 - weight) over all levels, and level i contributes its
blurred image times its weight times the product of (1 - weight) over the
later levels.  keepList and mixList are the same combinators phrased over
the enumerated (index, kernel size) pairs the fold of composite consumes. -/

/-- The blend weight of the specification: clip((g - i/12) / (1/12), 0, 1). -/
def specWeight (g : ℚ) (i : ℕ) : ℚ := npClip ((g - (i : ℚ) / 12) / (1 / 12)) 0 1

/-- Product of (1 - specWeight g i) over a list of level indices. -/
def specKeep (g : ℚ) (l : List ℕ) : ℚ := (l.map fun i => 1 - specWeight g i).prod

/-- Sum over the level indices of blurred contribution times weight times
the keep-product of the LATER levels. -/
def specMix (bl : ℕ → ℚ) (g : ℚ) : List ℕ → ℚ
  | [] => 0
  | i :: t => bl i * specWeight g i * specKeep g t + specMix bl g t

/-- Product of (1 - level_mask g i n) over enumerated levels. -/
def keepList (g : ℚ) (n : ℕ) (l : List (ℕ × ℕ)) : ℚ :=
  (l.map fun ik => 1 - level_mask g ik.1 n).prod

/-- Sum of contribution times weight times later keep-product, over
enumerated levels. -/
def mixList (g : ℚ) (n : ℕ) (bl : ℕ × ℕ → ℚ) : List (ℕ × ℕ) → ℚ
  | [] => 0
  | ik :: t => bl ik * level_mask g ik.1 n * keepList g n t + mixList g n bl t

/-! ## Helper lemmas -/

lemma npClip_le_hi (x lo hi : ℚ) : npClip x lo hi ≤ hi := min_le_right _ _

lemma lo_le_npClip (x lo hi : ℚ) (h : lo ≤ hi) : lo ≤ npClip x lo hi :=
  le_min (le_max_right _ _) h

lemma npClip_eq_self (x lo hi : ℚ) (h1 : lo ≤ x) (h2 : x ≤ hi) : npClip x lo hi = x := by
  unfold npClip
  rw [max_eq_left h1, min_eq_left h2]

lemma truncQ_of_nonneg (q : ℚ) (h : 0 ≤ q) : truncQ q = ⌊q⌋ := if_pos h

lemma truncQ_natCast (n : ℕ) : truncQ (n : ℚ) = (n : ℤ) := by
  rw [truncQ_of_nonneg _ (by positivity)]
  exact_mod_cast Int.floor_natCast n

lemma mem_pixels (h w : ℕ) (y x : ℕ) : (y, x) ∈ pixels h w ↔ y < h ∧ x < w := by
  simp only [pixels, List.mem_flatMap, List.mem_map, List.mem_range, Prod.mk.injEq]
  constructor
  · rintro ⟨a, ha, b, hb, hay, hbx⟩
    exact ⟨hay ▸ ha, hbx ▸ hb⟩
  · rintro ⟨hy, hx⟩
    exact ⟨y, hy, x, hx, rfl, rfl⟩

lemma mem_regionPixels (h w : ℕ) (region : Pix → Bool) (p : Pix)
    (hy : p.1 < h) (hx : p.2 < w) (hr : region p = true) :
    p ∈ regionPixels h w region := by
  refine List.mem_filter.mpr ⟨?_, hr⟩
  rcases p with ⟨y, x⟩
  exact (mem_pixels h w y x).mpr ⟨hy, hx⟩

lemma regionPixels_not_empty (h w : ℕ) (region : Pix → Bool) (p : Pix)
    (hy : p.1 < h) (hx : p.2 < w) (hr : region p = true) :
    (regionPixels h w region).isEmpty = false := by
  have hp := mem_regionPixels h w region p hy hx hr
  cases hl : regionPixels h w region with
  | nil => rw [hl] at hp; exact absurd hp (List.not_mem_nil p)
  | cons a t => rfl

lemma foldl_min_const (a : ℚ) (t : List ℚ) (hall : ∀ x ∈ t, x = a) :
    t.foldl min a = a := by
  induction t with
  | nil => rfl
  | cons b t ih =>
    have hb : b = a := hall b (by simp)
    rw [List.foldl_cons, hb, min_self]
    exact ih fun x hx => hall x (by simp [hx])

lemma foldl_max_const (a : ℚ) (t : List ℚ) (hall : ∀ x ∈ t, x = a) :
    t.foldl max a = a := by
  induction t with
  | nil => rfl
  | cons b t ih =>
    have hb : b = a := hall b (by simp)
    rw [List.foldl_cons, hb, max_self]
    exact ih fun x hx => hall x (by simp [hx])

lemma qmin_eq_qmax_of_const (l : List ℚ) (hall : ∀ x ∈ l, ∀ y ∈ l, x = y) :
    qmin l = qmax l := by
  cases l with
  | nil => rfl
  | cons a t =>
    have h : ∀ x ∈ t, x = a := fun x hx => hall x (by simp [hx]) a (by simp)
    simp only [qmin, qmax, foldl_min_const a t h, foldl_max_const a t h]

lemma level_mask_zero (i n : ℕ) : level_mask 0 i n = 0 := by
  have hden : ((i : ℚ) + 1) / (n : ℚ) - (i : ℚ) / (n : ℚ) = 1 / (n : ℚ) := by ring
  have hx : ((0 : ℚ) - (i : ℚ) / (n : ℚ)) / (((i : ℚ) + 1) / (n : ℚ) - (i : ℚ) / (n : ℚ)) ≤ 0 := by
    rw [hden]
    apply div_nonpos_of_nonpos_of_nonneg
    · simp [div_nonneg]
    · positivity
  simp only [level_mask, npClip]
  rw [max_eq_right hx, min_eq_left (by norm_num)]

lemma foldl_blend_id (g : Img) (n : ℕ) (blurOf : ℕ → Img) (p : Pix) (hz : g p = 0) :
    ∀ (L : List (ℕ × ℕ)) (r : Img), (L.foldl (blendStep g n blurOf) r) p = r p := by
  intro L
  induction L with
  | nil => intro r; rfl
  | cons ik t ih =>
    intro r
    rw [List.foldl_cons, ih]
    simp [blendStep, hz, level_mask_zero]

lemma foldl_blend_closed (g : Img) (n : ℕ) (blurOf : ℕ → Img) (p : Pix) :
    ∀ (L : List (ℕ × ℕ)) (r : Img),
      (L.foldl (blendStep g n blurOf) r) p
        = r p * keepList (g p) n L + mixList (g p) n (fun ik => blurOf ik.2 p) L := by
  intro L
  induction L with
  | nil => intro r; simp [keepList, mixList]
  | cons ik t ih =>
    intro r
    rw [List.foldl_cons, ih]
    simp only [keepList, mixList, List.map_cons, List.prod_cons, blendStep]
    ring

lemma level_mask_twelve (g : ℚ) (i : ℕ) : level_mask g i 12 = specWeight g i := by
  unfold level_mask specWeight
  have h12 : ((12 : ℕ) : ℚ) = 12 := by norm_num
  simp only [h12]
  have hden : ((i : ℚ) + 1) / 12 - (i : ℚ) / 12 = 1 / 12 := by ring
  rw [hden]

lemma keepList_eq_specKeep (g : ℚ) (L : List (ℕ × ℕ)) :
    keepList g 12 L = specKeep g (L.map Prod.fst) := by
  induction L with
  | nil => simp [keepList, specKeep]
  | cons ik t ih =>
    simp only [keepList, specKeep, List.map_cons, List.prod_cons, level_mask_twelve] at *
    rw [ih]

lemma mixList_eq_specMix (g : ℚ) (bl : ℕ × ℕ → ℚ) (bls : ℕ → ℚ) :
    ∀ L : List (ℕ × ℕ), (∀ ik ∈ L, bl ik = bls ik.1) →
      mixList g 12 bl L = specMix bls g (L.map Prod.fst) := by
  intro L
  induction L with
  | nil => intro _; rfl
  | cons ik t ih =>
    intro hall
    simp only [mixList, specMix, List.map_cons, level_mask_twelve]
    rw [ih fun x hx => hall x (List.mem_cons_of_mem _ hx),
      hall ik (List.mem_cons_self _ _), keepList_eq_specKeep]

lemma setPixels_apply (img : Img) (coords : List Pix) (v : ℚ) (p : Pix) :
    setPixels img coords v p = if p ∈ coords then v else img p := by
  induction coords generalizing img with
  | nil => simp [setPixels]
  | cons c t ih =>
    simp only [setPixels, List.foldl_cons] at *
    rw [ih]
    by_cases hp : p ∈ t
    · simp [hp]
    · by_cases hc : p = c <;> simp [hp, hc]

lemma floorSqrtQ_eval (q : ℚ) (n : ℕ) (h1 : ((n : ℕ) : ℚ) ^ 2 ≤ q)
    (h2 : q < (((n : ℕ) : ℚ) + 1) ^ 2) : floorSqrtQ q = n := by
  unfold floorSqrtQ
  have hq0 : (0 : ℚ) ≤ q := le_trans (by positivity) h1
  have hlo : ((n : ℤ)) ^ 2 ≤ ⌊q⌋ := by
    apply Int.le_floor.mpr
    push_cast
    exact h1
  have hhi : ⌊q⌋ < ((n : ℤ) + 1) ^ 2 := by
    apply Int.floor_lt.mpr
    push_cast
    exact h2
  have hlo2 : n ^ 2 ≤ ⌊q⌋.toNat := by
    have h := Int.toNat_le_toNat hlo
    rwa [show ((n : ℤ) ^ 2).toNat = n ^ 2 by
      rw [show ((n : ℤ) ^ 2) = ((n ^ 2 : ℕ) : ℤ) by push_cast; ring, Int.toNat_natCast]] at h
  have hhi2 : ⌊q⌋.toNat < (n + 1) ^ 2 := by
    have h3 : ⌊q⌋.toNat ≤ ⌊q⌋.toNat := le_refl _
    have h4 : (⌊q⌋.toNat : ℤ) = ⌊q⌋ := Int.toNat_of_nonneg (Int.floor_nonneg.mpr hq0)
    have : (⌊q⌋.toNat : ℤ) < ((n : ℤ) + 1) ^ 2 := by rw [h4]; exact hhi
    exact_mod_cast this
  have hle : n ≤ Nat.sqrt ⌊q⌋.toNat := Nat.le_sqrt.mpr (by nlinarith)
  have hlt : Nat.sqrt ⌊q⌋.toNat < n + 1 := by
    apply Nat.sqrt_lt.mpr
    calc ⌊q⌋.toNat < (n + 1) ^ 2 := hhi2
      _ = (n + 1) * (n + 1) := by ring
  omega

lemma floorSqrtQ_sq_le (q : ℚ) (hq : 0 ≤ q) : ((floorSqrtQ q : ℕ) : ℚ) ^ 2 ≤ q := by
  unfold floorSqrtQ
  have h1 : Nat.sqrt ⌊q⌋.toNat ^ 2 ≤ ⌊q⌋.toNat := Nat.sqrt_le' _
  have h2 : ((⌊q⌋.toNat : ℤ) : ℚ) = ((⌊q⌋ : ℤ) : ℚ) := by
    exact_mod_cast congrArg (fun z : ℤ => (z : ℚ)) (Int.toNat_of_nonneg (Int.floor_nonneg.mpr hq))
  calc ((Nat.sqrt ⌊q⌋.toNat : ℕ) : ℚ) ^ 2
      ≤ ((⌊q⌋.toNat : ℕ) : ℚ) := by exact_mod_cast h1
    _ = ((⌊q⌋ : ℤ) : ℚ) := by exact_mod_cast h2
    _ ≤ q := Int.floor_le q

lemma lt_floorSqrtQ_succ_sq (q : ℚ) : q < (((floorSqrtQ q : ℕ) : ℚ) + 1) ^ 2 := by
  unfold floorSqrtQ
  have h1 : ⌊q⌋.toNat < (Nat.sqrt ⌊q⌋.toNat + 1) ^ 2 := Nat.lt_succ_sqrt' _
  have h2 : ⌊q⌋ ≤ (⌊q⌋.toNat : ℤ) := Int.self_le_toNat _
  have h3 : q < ((⌊q⌋ : ℤ) : ℚ) + 1 := Int.lt_floor_add_one q
  have h4 : ((⌊q⌋.toNat : ℕ) : ℚ) + 1 ≤ (((Nat.sqrt ⌊q⌋.toNat + 1) ^ 2 : ℕ) : ℚ) := by
    exact_mod_cast h1
  have h5 : ((⌊q⌋ : ℤ) : ℚ) ≤ ((⌊q⌋.toNat : ℕ) : ℚ) := by exact_mod_cast h2
  push_cast at h4
  nlinarith

lemma optAbsMin_nonneg (x y : Option ℚ) : 0 ≤ optAbsMin x y := by
  cases x <;> cases y <;>
    simp only [optAbsMin] <;>
    first
      | exact le_refl 0
      | exact abs_nonneg _
      | exact le_min (abs_nonneg _) (abs_nonneg _)

lemma optAbsMin_le_left (y : Option ℚ) (q : ℚ) : optAbsMin (some q) y ≤ |q| := by
  cases y with
  | none => exact le_refl _
  | some b => exact min_le_left _ _

lemma optAbsMin_le_right (x : Option ℚ) (q : ℚ) : optAbsMin x (some q) ≤ |q| := by
  cases x with
  | none => exact le_refl _
  | some b => exact min_le_right _ _

lemma dist_draw_bounds (minD maxD u : ℚ) (h0 : 0 ≤ maxD) (hm : 0 < minD)
    (hu0 : 0 ≤ u) (hu1 : u < 1) :
    min minD maxD ≤ (if maxD < minD then maxD else minD + u * (maxD - minD)) ∧
    (if maxD < minD then maxD else minD + u * (maxD - minD)) ≤ maxD ∧
    0 ≤ (if maxD < minD then maxD else minD + u * (maxD - minD)) := by
  by_cases hc : maxD < minD
  · rw [if_pos hc]
    exact ⟨min_le_right _ _, le_refl _, h0⟩
  · rw [if_neg hc]
    push_neg at hc
    have h1 : 0 ≤ maxD - minD := by linarith
    have h2 : u * (maxD - minD) ≤ maxD - minD := by nlinarith
    have h3 : 0 ≤ u * (maxD - minD) := mul_nonneg hu0 h1
    exact ⟨le_trans (min_le_left _ _) (by linarith), by linarith, by linarith⟩

lemma axis_center_bounds (len oLen margin center oCenter : ℕ) (c oc dist maxD : ℚ)
    (htrig : c ^ 2 + oc ^ 2 = 1)
    (hd0 : 0 ≤ dist) (hdm : dist ≤ maxD)
    (hm1 : (margin : ℚ) + 1 ≤ (center : ℚ))
    (hm2 : (center : ℚ) + (margin : ℚ) + 1 ≤ (len : ℚ))
    (hom1 : (margin : ℚ) ≤ (oCenter : ℚ))
    (hom2 : (oCenter : ℚ) ≤ (oLen : ℚ))
    (hbx : ∀ q, axis_max_dist len margin center c = some q → maxD ≤ |q|)
    (hby : ∀ q, axis_max_dist oLen margin oCenter oc = some q → maxD ≤ |q|)
    (holen : (oLen : ℚ) ≤ 100000) :
    (margin : ℚ) ≤ (center : ℚ) + dist * c
      ∧ (center : ℚ) + dist * c ≤ (len : ℚ) - (margin : ℚ) := by
  by_cases h1 : 1 / 1000000 < c
  · have hsome : axis_max_dist len margin center c
        = some (((len : ℚ) - (margin : ℚ) - (center : ℚ)) / c) := by
      unfold axis_max_dist
      rw [if_pos h1]
    have hq := hbx _ hsome
    have hc0 : (0 : ℚ) < c := lt_trans (by norm_num) h1
    have hnum : (0 : ℚ) ≤ (len : ℚ) - (margin : ℚ) - (center : ℚ) := by linarith
    rw [abs_of_nonneg (div_nonneg hnum (le_of_lt hc0))] at hq
    constructor
    · have h5 : 0 ≤ dist * c := mul_nonneg hd0 (le_of_lt hc0)
      linarith
    · have h4 : maxD * c ≤ (len : ℚ) - (margin : ℚ) - (center : ℚ) := by
        have h6 := mul_le_mul_of_nonneg_right hq (le_of_lt hc0)
        rwa [div_mul_cancel₀ _ (ne_of_gt hc0)] at h6
      have h5 : dist * c ≤ maxD * c := mul_le_mul_of_nonneg_right hdm (le_of_lt hc0)
      linarith
  · by_cases h2 : c < -(1 / 1000000)
    · have hsome : axis_max_dist len margin center c
          = some (((margin : ℚ) - (center : ℚ)) / c) := by
        unfold axis_max_dist
        rw [if_neg h1, if_pos h2]
      have hq := hbx _ hsome
      have hc0 : c < 0 := lt_trans h2 (by norm_num)
      have hnum : (margin : ℚ) - (center : ℚ) ≤ 0 := by linarith
      have hqn : 0 ≤ ((margin : ℚ) - (center : ℚ)) / c :=
        div_nonneg_iff.mpr (Or.inr ⟨hnum, le_of_lt hc0⟩)
      rw [abs_of_nonneg hqn] at hq
      constructor
      · have h4 : (margin : ℚ) - (center : ℚ) ≤ maxD * c := by
          have h6 := mul_le_mul_of_nonpos_right hq (le_of_lt hc0)
          rwa [div_mul_cancel₀ _ (ne_of_lt hc0)] at h6
        have h5 : maxD * c ≤ dist * c := mul_le_mul_of_nonpos_right hdm (le_of_lt hc0)
        linarith
      · have h5 : dist * c ≤ 0 := mul_nonpos_of_nonneg_of_nonpos hd0 (le_of_lt hc0)
        linarith
    · push_neg at h1 h2
      have hcabs : |c| ≤ 1 / 1000000 := abs_le.mpr ⟨by linarith, h1⟩
      have hc2 : c ^ 2 ≤ 1 / 1000000000000 := by
        have h3 : |c| * |c| ≤ 1 / 1000000 * (1 / 1000000) :=
          mul_le_mul hcabs hcabs (abs_nonneg c) (by norm_num)
        calc c ^ 2 = |c| * |c| := by rw [← sq_abs c]; ring
          _ ≤ 1 / 1000000000000 := by linarith
      have hoc : 1 / 2 ≤ |oc| := by
        by_contra hlt
        push_neg at hlt
        have h7 : oc ^ 2 < 1 / 4 := by
          calc oc ^ 2 = |oc| * |oc| := by rw [← sq_abs oc]; ring
            _ < 1 / 2 * (1 / 2) :=
              mul_lt_mul' (le_of_lt hlt) hlt (abs_nonneg oc) (by norm_num)
            _ = 1 / 4 := by norm_num
        linarith
      have hmaxb : maxD ≤ 2 * (oLen : ℚ) := by
        by_cases ho : 1 / 1000000 < oc
        · have hsome : axis_max_dist oLen margin oCenter oc
              = some (((oLen : ℚ) - (margin : ℚ) - (oCenter : ℚ)) / oc) := by
            unfold axis_max_dist
            rw [if_pos ho]
          have hq := hby _ hsome
          have hnum : |(oLen : ℚ) - (margin : ℚ) - (oCenter : ℚ)| ≤ (oLen : ℚ) := by
            have h6 : (margin : ℚ) ≤ (oLen : ℚ) := le_trans hom1 hom2
            rw [abs_le]
            constructor
            · linarith
            · linarith [Nat.cast_nonneg (α := ℚ) margin, Nat.cast_nonneg (α := ℚ) oCenter]
          calc maxD ≤ |((oLen : ℚ) - (margin : ℚ) - (oCenter : ℚ)) / oc| := hq
            _ = |(oLen : ℚ) - (margin : ℚ) - (oCenter : ℚ)| / |oc| := abs_div _ _
            _ ≤ (oLen : ℚ) / (1 / 2) := div_le_div (Nat.cast_nonneg _) hnum (by norm_num) hoc
            _ = 2 * (oLen : ℚ) := by ring
        · by_cases ho2 : oc < -(1 / 1000000)
          · have hsome : axis_max_dist oLen margin oCenter oc
                = some (((margin : ℚ) - (oCenter : ℚ)) / oc) := by
              unfold axis_max_dist
              rw [if_neg ho, if_pos ho2]
            have hq := hby _ hsome
            have hnum : |(margin : ℚ) - (oCenter : ℚ)| ≤ (oLen : ℚ) := by
              have h6 : (margin : ℚ) ≤ (oLen : ℚ) := le_trans hom1 hom2
              rw [abs_le]
              constructor
              · linarith [Nat.cast_nonneg (α := ℚ) margin]
              · linarith [Nat.cast_nonneg (α := ℚ) oCenter]
            calc maxD ≤ |((margin : ℚ) - (oCenter : ℚ)) / oc| := hq
              _ = |(margin : ℚ) - (oCenter : ℚ)| / |oc| := abs_div _ _
              _ ≤ (oLen : ℚ) / (1 / 2) := div_le_div (Nat.cast_nonneg _) hnum (by norm_num) hoc
              _ = 2 * (oLen : ℚ) := by ring
          · exfalso
            push_neg at ho ho2
            have h8 : |oc| ≤ 1 / 1000000 := abs_le.mpr ⟨by linarith, ho⟩
            linarith
      have hsmall : |dist * c| ≤ 1 / 5 := by
        rw [abs_mul, abs_of_nonneg hd0]
        have hmax0 : 0 ≤ maxD := le_trans hd0 hdm
        calc dist * |c| ≤ maxD * (1 / 1000000) :=
              mul_le_mul hdm hcabs (abs_nonneg c) hmax0
          _ ≤ 2 * 100000 * (1 / 1000000) := by nlinarith
          _ = 1 / 5 := by norm_num
      obtain ⟨hs1, hs2⟩ := abs_le.mp hsmall
      constructor <;> linarith

lemma truncQ_clip_int (q : ℚ) (mN wN : ℕ) (h1 : (mN : ℚ) ≤ q)
    (h2 : q ≤ (wN : ℚ) - (mN : ℚ)) :
    npClipInt (truncQ q) (mN : ℤ) ((wN : ℤ) - (mN : ℤ)) = ⌊q⌋
      ∧ (mN : ℤ) ≤ ⌊q⌋ ∧ ⌊q⌋ ≤ (wN : ℤ) - (mN : ℤ) := by
  have h0 : (0 : ℚ) ≤ q := le_trans (by positivity) h1
  have hlo : (mN : ℤ) ≤ ⌊q⌋ := Int.le_floor.mpr (by exact_mod_cast h1)
  have hhi : ⌊q⌋ ≤ (wN : ℤ) - (mN : ℤ) := by
    have h3 : ((⌊q⌋ : ℤ) : ℚ) ≤ (((wN : ℤ) - (mN : ℤ) : ℤ) : ℚ) :=
      le_trans (Int.floor_le q) (by push_cast; linarith)
    exact_mod_cast h3
  refine ⟨?_, hlo, hhi⟩
  rw [truncQ_of_nonneg _ h0]
  unfold npClipInt
  rw [max_eq_left hlo, min_eq_left hhi]

lemma floor_sq_ge (e : ℚ) : e ^ 2 - 2 * |e| ≤ ((⌊e⌋ : ℤ) : ℚ) ^ 2 := by
  rcases le_or_lt 0 e with he | he
  · rw [abs_of_nonneg he]
    have hf : ((⌊e⌋ : ℤ) : ℚ) ≤ e := Int.floor_le e
    have hf1 : e < ((⌊e⌋ : ℤ) : ℚ) + 1 := Int.lt_floor_add_one e
    have hf0 : (0 : ℚ) ≤ ((⌊e⌋ : ℤ) : ℚ) := by exact_mod_cast Int.floor_nonneg.mpr he
    rcases le_or_lt e 2 with he2 | he2
    · nlinarith [sq_nonneg ((⌊e⌋ : ℤ) : ℚ), mul_nonneg he (by linarith : (0 : ℚ) ≤ 2 - e)]
    · nlinarith [mul_pos (show (0 : ℚ) < ((⌊e⌋ : ℤ) : ℚ) - (e - 1) by linarith)
        (show (0 : ℚ) < ((⌊e⌋ : ℤ) : ℚ) + (e - 1) by linarith)]
  · rw [abs_of_neg he]
    have hf : ((⌊e⌋ : ℤ) : ℚ) ≤ e := Int.floor_le e
    nlinarith [mul_nonneg (show (0 : ℚ) ≤ e - ((⌊e⌋ : ℤ) : ℚ) by linarith)
      (show (0 : ℚ) ≤ -(((⌊e⌋ : ℤ) : ℚ) + e) by linarith)]

lemma abs_cos_add_abs_sin_le (c s : ℚ) (h : c ^ 2 + s ^ 2 = 1) : |c| + |s| ≤ 3 / 2 := by
  nlinarith [sq_nonneg (|c| - |s|), abs_nonneg c, abs_nonneg s, sq_abs c, sq_abs s,
    sq_nonneg (|c| + |s|)]

lemma dist_sq_lower (Ex Ey dist m : ℚ) (hE : Ex ^ 2 + Ey ^ 2 = dist ^ 2)
    (habs : |Ex| + |Ey| ≤ 3 / 2 * dist) (hdm : m ≤ dist) (hm4 : 4 ≤ m) :
    (m - 2) ^ 2 ≤ ((⌊Ex⌋ : ℤ) : ℚ) ^ 2 + ((⌊Ey⌋ : ℤ) : ℚ) ^ 2 := by
  have h1 := floor_sq_ge Ex
  have h2 := floor_sq_ge Ey
  nlinarith [mul_nonneg (show (0 : ℚ) ≤ dist - m by linarith)
    (show (0 : ℚ) ≤ dist + m - 3 by linarith)]

/-! ## Claim theorems -/

/-- Claim C6 (evidence of the code bug): the kernel-size sequence of line
322 is [3, 6, ..., 36], strictly increasing (weakest kernel first) in fixed
steps of 3 from 3 up to 36, but it contains the even size 6 (and every
second entry is even), although the docstring of create_motion_blur_kernel
(line 19) requires an odd size and the claim states all sizes are odd. -/
theorem c6_blur_levels_even_bug :
    blur_levels.Sorted (· < ·) ∧ blur_levels.length = 12 ∧
    (∀ k ∈ blur_levels, 3 ≤ k ∧ k ≤ 36 ∧ k % 3 = 0) ∧
    blur_levels.getD 1 0 = 6 ∧ 6 ∈ blur_levels ∧ 6 % 2 = 0 := by decide

/-- Claim C9: calculate_metrics classifies every response into exactly one
of TP, TN, FP, FN, inconclusive.  A non-conclusive response leaves all four
counts zero; a conclusive one sets exactly one count: TP iff the group has
a true match, a match was claimed and the claimed index equals the ground
truth; FN iff the group has a true match and no match was claimed; FP iff
a match was claimed and either the group has a true match at a different
index or the group has none; TN iff the group has no true match and no
match was claimed.  The four counts always sum to 1 when conclusive and to
0 when not. -/
theorem c9_metrics_classification (hss : Bool) (tmi : Option ℤ) (c : Bool)
    (hm : Option Bool) (mii : Option ℤ) :
    (calculate_metrics hss tmi c hm mii).conclusivo = (if c then 1 else 0) ∧
    (calculate_metrics hss tmi c hm mii).verdadeiro_positivo
      = (if c ∧ hss ∧ hm = some true ∧ mii = tmi then 1 else 0) ∧
    (calculate_metrics hss tmi c hm mii).falso_negativo
      = (if c ∧ hss ∧ ¬ hm = some true then 1 else 0) ∧
    (calculate_metrics hss tmi c hm mii).falso_positivo
      = (if c ∧ hm = some true ∧ ((hss ∧ ¬ mii = tmi) ∨ ¬ hss) then 1 else 0) ∧
    (calculate_metrics hss tmi c hm mii).verdadeiro_negativo
      = (if c ∧ ¬ hss ∧ ¬ hm = some true then 1 else 0) ∧
    (calculate_metrics hss tmi c hm mii).verdadeiro_positivo
      + (calculate_metrics hss tmi c hm mii).verdadeiro_negativo
      + (calculate_metrics hss tmi c hm mii).falso_positivo
      + (calculate_metrics hss tmi c hm mii).falso_negativo = (if c then 1 else 0) := by
  by_cases hmi : mii = tmi <;>
    cases c <;> cases hss <;>
    rcases hm with _ | _ | _ <;>
    simp [calculate_metrics, hmi]

/-- Claim C7, amended: the Gaussian noise injector uses
sigma = 5 + 5 * intensity (line 189) on a float-promoted copy, so at
intensity 0 sigma is 5, not 0, and noise is still injected: each output
pixel is the 8-bit quantization of clip(original + draw, 0, 255), hence
within 1 of that clipped noisy value, but not in general within 1 of the
original pixel. -/
theorem c7_gaussian_sigma_amended (intensity : ℚ) (img : Pix → ℕ) (draws : Img)
    (salt pepper : List Pix) (p : Pix) :
    noise_sigma intensity = 5 + 5 * intensity ∧
    noise_sigma 0 = 5 ∧
    |((add_noise img .gaussian draws salt pepper p : ℕ) : ℚ)
        - npClip ((img p : ℚ) + draws p) 0 255| ≤ 1 := by
  refine ⟨by unfold noise_sigma; ring, by norm_num [noise_sigma], ?_⟩
  have hc : (0 : ℚ) ≤ npClip ((img p : ℚ) + draws p) 0 255 :=
    lo_le_npClip _ 0 255 (by norm_num)
  have hout : add_noise img .gaussian draws salt pepper p
      = (⌊npClip ((img p : ℚ) + draws p) 0 255⌋).toNat := by
    simp [add_noise, useGaussian, useSaltPepper, truncQ_of_nonneg _ hc]
  rw [hout]
  set q : ℚ := npClip ((img p : ℚ) + draws p) 0 255 with hq
  have hfl : (0 : ℤ) ≤ ⌊q⌋ := Int.floor_nonneg.mpr hc
  have hcast : ((⌊q⌋.toNat : ℕ) : ℚ) = ((⌊q⌋ : ℤ) : ℚ) := by
    exact_mod_cast congrArg (fun z : ℤ => (z : ℚ)) (Int.toNat_of_nonneg hfl)
  rw [hcast]
  have h1 : ((⌊q⌋ : ℤ) : ℚ) ≤ q := Int.floor_le q
  have h2 : q < ((⌊q⌋ : ℤ) : ℚ) + 1 := Int.lt_floor_add_one q
  rw [abs_le]
  constructor <;> linarith

/-- Claim C7, counterexample to the claim as stated: at intensity 0 the
sigma floor is 5 and a realization drawing 5 at a pixel of value 100 moves
it to 105, which is not within 1 of its original value. -/
theorem c7_gaussian_counterexample :
    noise_sigma 0 = 5 ∧
    add_noise (fun _ => 100) .gaussian (fun _ => 5) [] [] (0, 0) = 105 ∧
    ¬ (|(105 : ℚ) - 100| ≤ 1) := by
  refine ⟨by norm_num [noise_sigma], ?_, by norm_num⟩
  norm_num [add_noise, useGaussian, useSaltPepper, npClip, truncQ]
  decide

/-- Claim C2: for every image size, distance fields and rasterized ellipse
region, the gradient returned by create_gradient_mask lies in [0, 1]
everywhere, is exactly 0 at every pixel outside the region, and is at
least 0.05 at every pixel inside it. -/
theorem c2_gradient_mask_range (h w : ℕ) (distImg distEll : Img) (region : Pix → Bool)
    (p : Pix) (hy : p.1 < h) (hx : p.2 < w) :
    (0 ≤ create_gradient_mask h w distImg distEll region p
      ∧ create_gradient_mask h w distImg distEll region p ≤ 1)
    ∧ (region p = false → create_gradient_mask h w distImg distEll region p = 0)
    ∧ (region p = true → 5 / 100 ≤ create_gradient_mask h w distImg distEll region p) := by
  by_cases hr : region p
  · have hne := regionPixels_not_empty h w region p hy hx hr
    have hval : create_gradient_mask h w distImg distEll region p
        = npClip (grad_renorm h w distImg distEll region p) (5 / 100) 1 := by
      simp [create_gradient_mask, hne, hr]
    refine ⟨⟨?_, ?_⟩, fun hf => by rw [hf] at hr; exact absurd hr (by simp), fun _ => ?_⟩
    · rw [hval]
      exact le_trans (by norm_num) (lo_le_npClip _ _ _ (by norm_num))
    · rw [hval]
      exact npClip_le_hi _ _ _
    · rw [hval]
      exact lo_le_npClip _ _ _ (by norm_num)
  · have hr0 : region p = false := by simpa using hr
    have hval : create_gradient_mask h w distImg distEll region p = 0 := by
      by_cases he : (regionPixels h w region).isEmpty <;> simp [create_gradient_mask, he, hr0]
    exact ⟨⟨by rw [hval], by rw [hval]; norm_num⟩, fun _ => hval, fun ht => by
      rw [ht] at hr0; exact absurd hr0 (by simp)⟩

/-- Claim C2 witness: a concrete 2 by 2 image with a one-pixel region. -/
theorem c2_gradient_mask_range_witness :
    (0 ≤ create_gradient_mask 2 2 (fun _ => 1) (fun _ => 1) (fun q => q.1 == 0 && q.2 == 0) (0, 0)
      ∧ create_gradient_mask 2 2 (fun _ => 1) (fun _ => 1) (fun q => q.1 == 0 && q.2 == 0) (0, 0) ≤ 1)
    ∧ ((fun q : Pix => q.1 == 0 && q.2 == 0) (0, 0) = false →
        create_gradient_mask 2 2 (fun _ => 1) (fun _ => 1) (fun q => q.1 == 0 && q.2 == 0) (0, 0) = 0)
    ∧ ((fun q : Pix => q.1 == 0 && q.2 == 0) (0, 0) = true →
        5 / 100 ≤ create_gradient_mask 2 2 (fun _ => 1) (fun _ => 1) (fun q => q.1 == 0 && q.2 == 0) (0, 0)) :=
  c2_gradient_mask_range 2 2 (fun _ => 1) (fun _ => 1) (fun q => q.1 == 0 && q.2 == 0) (0, 0)
    (by decide) (by decide)

/-- Claim C8: when all ellipse pixels are equidistant from the image
center, the min-max normalization of the radial field has zero range and
falls back to the constant 0.5; when all are equidistant from the ellipse
center, the elliptical normalization falls back to the constant 0.  Both
cases are ordinary total computations of the embedding: no error is raised
or surfaced. -/
theorem c8_normalization_fallback (h w : ℕ) (distImg distEll : Img) (region : Pix → Bool) :
    ((∀ p ∈ regionPixels h w region, ∀ q ∈ regionPixels h w region, distImg p = distImg q) →
      ∀ p : Pix, radial_norm_field h w distImg region p = 1 / 2) ∧
    ((∀ p ∈ regionPixels h w region, ∀ q ∈ regionPixels h w region, distEll p = distEll q) →
      ∀ p : Pix, ellipse_norm_field h w distEll region p = 0) := by
  constructor
  · intro hdeg p
    have heq : qmin ((regionPixels h w region).map distImg)
        = qmax ((regionPixels h w region).map distImg) := by
      apply qmin_eq_qmax_of_const
      intro x hx y hy
      rcases List.mem_map.mp hx with ⟨px, hpx, rfl⟩
      rcases List.mem_map.mp hy with ⟨py, hpy, rfl⟩
      exact hdeg px hpx py hpy
    simp [radial_norm_field, minmaxNorm, heq]
  · intro hdeg p
    have heq : qmin ((regionPixels h w region).map distEll)
        = qmax ((regionPixels h w region).map distEll) := by
      apply qmin_eq_qmax_of_const
      intro x hx y hy
      rcases List.mem_map.mp hx with ⟨px, hpx, rfl⟩
      rcases List.mem_map.mp hy with ⟨py, hpy, rfl⟩
      exact hdeg px hpx py hpy
    simp [ellipse_norm_field, minmaxNorm, heq]

/-- Claim C8 witness: on a 1 by 2 all-inside region with constant distance
fields, the radial normalization returns 0.5 and the elliptical one 0. -/
theorem c8_normalization_fallback_witness :
    radial_norm_field 1 2 (fun _ => 5) (fun _ => true) (0, 0) = 1 / 2 ∧
    ellipse_norm_field 1 2 (fun _ => 7) (fun _ => true) (0, 0) = 0 :=
  ⟨(c8_normalization_fallback 1 2 (fun _ => 5) (fun _ => 7) (fun _ => true)).1
      (fun _ _ _ _ => rfl) (0, 0),
    (c8_normalization_fallback 1 2 (fun _ => 5) (fun _ => 7) (fun _ => true)).2
      (fun _ _ _ _ => rfl) (0, 0)⟩

/-- Claim C10: at a pixel where the gradient mask is 0 the blend weight of
every level is 0, so the pipeline output equals the blend base exactly: the
noise-injected pixel when noise is enabled, the original pixel otherwise,
whatever the blur kernels and the convolution do.  In particular (third
conjunct) every pixel outside the rasterized ellipse has gradient 0. -/
theorem c10_zero_gradient_frame (filt : Img → Img → Img) (image noisy : Pix → ℕ)
    (nf : Bool) (g : Img) (dx dy : ℚ) (h w : ℕ) (dI dE : Img) (region : Pix → Bool)
    (p : Pix) (hz : g p = 0) :
    (∀ i n : ℕ, level_mask (g p) i n = 0) ∧
    apply_blur_pipeline filt image noisy nf g dx dy p
      = (if nf then (noisy p : ℤ) else (image p : ℤ)) ∧
    (region p = false → create_gradient_mask h w dI dE region p = 0) := by
  refine ⟨fun i n => by rw [hz]; exact level_mask_zero i n, ?_, fun hf => ?_⟩
  · unfold apply_blur_pipeline composite
    rw [foldl_blend_id g _ _ p hz]
    unfold blend_base
    cases nf <;> simp [truncQ_natCast]
  · by_cases he : (regionPixels h w region).isEmpty <;> simp [create_gradient_mask, he, hf]

/-- Claim C10 witness: with a zero mask and noise enabled, the pipeline
returns the noisy value 3, not the original 7, at the probed pixel. -/
theorem c10_zero_gradient_frame_witness :
    (∀ i n : ℕ, level_mask 0 i n = 0) ∧
    apply_blur_pipeline (fun _ im => im) (fun _ => 7) (fun _ => 3) true (fun _ => 0) 0 0 (0, 0)
      = (if true then ((3 : ℕ) : ℤ) else ((7 : ℕ) : ℤ)) ∧
    ((fun _ : Pix => false) (0, 0) = false →
      create_gradient_mask 1 1 (fun _ => 0) (fun _ => 0) (fun _ => false) (0, 0) = 0) :=
  c10_zero_gradient_frame (fun _ im => im) (fun _ => 7) (fun _ => 3) true (fun _ => 0) 0 0
    1 1 (fun _ => 0) (fun _ => 0) (fun _ => false) (0, 0) rfl

/-- Claim C1: the 12-level compositor refines its specification.  The
final accumulator at every pixel equals the blend base (the noise-injected
image when the flag is set, else the original) times the product of
(1 - weight_i) over all levels, plus the sum over levels i of the
convolution of the ORIGINAL clean image with the kernel of level i, times
weight_i, times the product of (1 - weight_j) over the later levels j,
where weight_i = clip((gradient - i/12) / (1/12), 0, 1).  The blurred term
of each level is filt applied to the original image, never to the
accumulator and never to the noise-injected base, which enters only as the
starting accumulator. -/
theorem c1_compositor_refines_spec (filt : Img → Img → Img) (image noisy : Pix → ℕ)
    (nf : Bool) (g : Img) (dx dy : ℚ) (p : Pix) :
    apply_blur_pipeline filt image noisy nf g dx dy p
      = truncQ (blend_base image noisy nf p * specKeep (g p) (List.range 12)
          + specMix
              (fun i => filt (create_motion_blur_kernel (blur_levels.getD i 0) dx dy)
                (fun q => (image q : ℚ)) p)
              (g p) (List.range 12)) := by
  have h1 : composite filt (fun q => (image q : ℚ)) (blend_base image noisy nf) g dx dy p
      = blend_base image noisy nf p * keepList (g p) 12 blur_levels.enum
        + mixList (g p) 12
            (fun ik => filt (create_motion_blur_kernel ik.2 dx dy) (fun q => (image q : ℚ)) p)
            blur_levels.enum :=
    foldl_blend_closed g 12
      (fun k => filt (create_motion_blur_kernel k dx dy) (fun q => (image q : ℚ))) p
      blur_levels.enum (blend_base image noisy nf)
  have henum : blur_levels.enum.map Prod.fst = List.range 12 := by decide
  have h2 : keepList (g p) 12 blur_levels.enum = specKeep (g p) (List.range 12) := by
    rw [keepList_eq_specKeep, henum]
  have h3 : mixList (g p) 12
        (fun ik => filt (create_motion_blur_kernel ik.2 dx dy) (fun q => (image q : ℚ)) p)
        blur_levels.enum
      = specMix
          (fun i => filt (create_motion_blur_kernel (blur_levels.getD i 0) dx dy)
            (fun q => (image q : ℚ)) p)
          (g p) (List.range 12) := by
    rw [mixList_eq_specMix (g p)
        (fun ik => filt (create_motion_blur_kernel ik.2 dx dy) (fun q => (image q : ℚ)) p)
        (fun i => filt (create_motion_blur_kernel (blur_levels.getD i 0) dx dy)
          (fun q => (image q : ℚ)) p)
        blur_levels.enum ?_, henum]
    intro ik hik
    fin_cases hik <;> rfl
  simp only [apply_blur_pipeline]
  rw [h1, h2, h3]

/-- Claim C3, counterexample to the count formula as stated: on a 31 by 10
image with 3 channels at intensity 1 the code draws
int(0.005 * image.size) = int(4.65) = 4 salt coordinates, while the claimed
round(0.005 * total_pixel_count) gives 2 (reading total_pixel_count as the
310 pixels) and even rounding the full element count gives 5, not 4. -/
theorem c3_salt_count_counterexample :
    num_salt 1 (31 * 10 * 3) = 4 ∧
    round ((5 : ℚ) / 1000 * 1 * (31 * 10)) = 2 ∧
    round ((5 : ℚ) / 1000 * 1 * (31 * 10 * 3)) = 5 ∧
    (4 : ℕ) ≠ 2 ∧ (4 : ℕ) ≠ 5 := by
  refine ⟨?_, by norm_num [round_eq], by norm_num [round_eq], by norm_num, by norm_num⟩
  norm_num [num_salt, noise_amount, truncQ]
  decide

/-- Claim C3, amended: the salt and pepper passes each draw exactly
int(0.005 * intensity * image.size) coordinate pairs, where image.size is
the numpy element count h * w * channels (3 * h * w for the 3-channel
pipeline images) and int() truncates; at intensity 1 on a 3-channel image
that count is floor(0.015 * h * w), not round(0.005 * h * w).  The pixels
drawn in the salt pass get value 255 on all channels, then the pixels of
the independent pepper pass get 0, overlaps resolved last-write-wins:
pepper over salt over the original value. -/
theorem c3_salt_pepper_amended (hN wN cN : ℕ) (intensity : ℚ) (img : Pix → ℕ) (gauss : Img)
    (salt pepper : List Pix)
    (hsalt : salt.length = num_salt intensity (hN * wN * cN))
    (hpepper : pepper.length = num_salt intensity (hN * wN * cN))
    (hb : ∀ q : Pix, img q ≤ 255) (p : Pix) :
    salt.length = pepper.length ∧
    add_noise img .salt_pepper gauss salt pepper p
      = (if p ∈ pepper then 0 else if p ∈ salt then 255 else img p) ∧
    num_salt 1 (hN * wN * 3) = 3 * (hN * wN) / 200 := by
  refine ⟨by rw [hsalt, hpepper], ?_, ?_⟩
  · have hx : add_noise img .salt_pepper gauss salt pepper p
        = (truncQ (npClip (setPixels (setPixels (fun q => (img q : ℚ)) salt 255) pepper 0 p)
            0 255)).toNat := rfl
    rw [hx, setPixels_apply, setPixels_apply]
    by_cases hp : p ∈ pepper
    · rw [if_pos hp, if_pos hp,
        npClip_eq_self 0 0 255 (le_refl 0) (by norm_num), truncQ_of_nonneg 0 (le_refl 0)]
      decide
    · rw [if_neg hp, if_neg hp]
      by_cases hs : p ∈ salt
      · rw [if_pos hs, if_pos hs,
          npClip_eq_self 255 0 255 (by norm_num) (le_refl 255),
          truncQ_of_nonneg 255 (by norm_num)]
        decide
      · rw [if_neg hs, if_neg hs,
          npClip_eq_self _ _ _ (by positivity) (by exact_mod_cast hb p), truncQ_natCast]
        exact Int.toNat_natCast _
  · unfold num_salt noise_amount
    have hcast : (5 / 1000 : ℚ) * 1 * ((hN * wN * 3 : ℕ) : ℚ)
        = ((3 * (hN * wN) : ℕ) : ℚ) / ((200 : ℕ) : ℚ) := by push_cast; ring
    rw [hcast, truncQ_of_nonneg _ (by positivity), Int.floor_toNat, Nat.floor_div_nat,
      Nat.floor_natCast]

/-- Claim C3 witness: a 20 by 10 by 3 image at intensity 1 draws 3 salt and
3 pepper coordinates; the probed pixel (0, 1) is salt only, so it reads
255, and the drawn count 3 equals floor(0.015 * 200). -/
theorem c3_salt_pepper_amended_witness :
    ([((0 : ℕ), (0 : ℕ)), (0, 1), (0, 2)] : List Pix).length
      = ([((0 : ℕ), (0 : ℕ)), (1, 1), (1, 2)] : List Pix).length ∧
    add_noise (fun _ => 100) .salt_pepper (fun _ => 0)
        [((0 : ℕ), (0 : ℕ)), (0, 1), (0, 2)] [((0 : ℕ), (0 : ℕ)), (1, 1), (1, 2)] (0, 1)
      = (if ((0 : ℕ), (1 : ℕ)) ∈ ([((0 : ℕ), (0 : ℕ)), (1, 1), (1, 2)] : List Pix) then 0
          else if ((0 : ℕ), (1 : ℕ)) ∈ ([((0 : ℕ), (0 : ℕ)), (0, 1), (0, 2)] : List Pix) then 255
          else 100) ∧
    num_salt 1 (20 * 10 * 3) = 3 * (20 * 10) / 200 :=
  c3_salt_pepper_amended 20 10 3 1 (fun _ => 100) (fun _ => 0)
    [((0 : ℕ), (0 : ℕ)), (0, 1), (0, 2)] [((0 : ℕ), (0 : ℕ)), (1, 1), (1, 2)]
    (by norm_num [num_salt, noise_amount, truncQ]; decide)
    (by norm_num [num_salt, noise_amount, truncQ]; decide)
    (fun _ => by norm_num) ((0 : ℕ), (1 : ℕ))

/-- Claim C5, counterexample to the exact relation b = a * sqrt(1 - e^2):
with eccentricity 3/5 (so sqrt(1 - e^2) = 4/5), area_percent 1/4 on a
20 by 20 image (target area 100) and the float value of np.pi, the code
derives a = 6 and b = int(6 * 0.8) = int(4.8) = 4, and 4 is not 6 * (4/5). -/
theorem c5_exact_b_counterexample :
    (0 < (1 / 4 : ℚ) ∧ (1 / 4 : ℚ) < 1) ∧
    (0 ≤ (3 / 5 : ℚ) ∧ (3 / 5 : ℚ) < 1) ∧
    ((4 : ℚ) / 5) ^ 2 = 1 - ((3 : ℚ) / 5) ^ 2 ∧
    (((20 : ℕ) : ℚ) * ((20 : ℕ) : ℚ)) * (1 / 4) = 100 ∧
    ellipse_a np_pi (4 / 5) 100 = 6 ∧
    ellipse_b np_pi (4 / 5) 100 = 4 ∧
    ((ellipse_b np_pi (4 / 5) 100 : ℕ) : ℚ) ≠ (ellipse_a np_pi (4 / 5) 100 : ℚ) * (4 / 5) := by
  have ha : ellipse_a np_pi (4 / 5) 100 = 6 := by
    unfold ellipse_a
    apply floorSqrtQ_eval _ 6 ?_ ?_
    · rw [le_div_iff₀ (by norm_num [np_pi] : (0 : ℚ) < np_pi * (4 / 5))]
      norm_num [np_pi]
    · rw [div_lt_iff₀ (by norm_num [np_pi] : (0 : ℚ) < np_pi * (4 / 5))]
      norm_num [np_pi]
  have hb : ellipse_b np_pi (4 / 5) 100 = 4 := by
    unfold ellipse_b
    rw [ha]
    norm_num [truncQ]
    decide
  refine ⟨by norm_num, by norm_num, by norm_num, by norm_num, ha, hb, ?_⟩
  rw [ha, hb]
  norm_num

/-- Claim C5, amended: for area_percent in (0, 1) and eccentricity in
[0, 1), writing s = sqrt(1 - e^2) and A = area_percent * w * h, the code
derives a = floor(sqrt(A / (pi * s))) and b = floor(a * s), so b ≤ a with
b ≤ a * s < b + 1 (b equals a * s only up to integer truncation), and the
discretized area is bracketed: pi * a * b ≤ A < pi * (a + 1) * (b + 2). -/
theorem c5_radii_amended (w h : ℕ) (area_percent ecc s pi : ℚ)
    (hap : 0 < area_percent) (hap1 : area_percent < 1)
    (hecc : 0 ≤ ecc) (hecc1 : ecc < 1)
    (hs : 0 < s) (hsq : s ^ 2 = 1 - ecc ^ 2) (hpi : 0 < pi) :
    ellipse_b pi s (((h : ℚ) * (w : ℚ)) * area_percent)
      ≤ ellipse_a pi s (((h : ℚ) * (w : ℚ)) * area_percent) ∧
    ((ellipse_b pi s (((h : ℚ) * (w : ℚ)) * area_percent) : ℕ) : ℚ)
      ≤ (ellipse_a pi s (((h : ℚ) * (w : ℚ)) * area_percent) : ℚ) * s ∧
    (ellipse_a pi s (((h : ℚ) * (w : ℚ)) * area_percent) : ℚ) * s
      < ((ellipse_b pi s (((h : ℚ) * (w : ℚ)) * area_percent) : ℕ) : ℚ) + 1 ∧
    pi * (ellipse_a pi s (((h : ℚ) * (w : ℚ)) * area_percent) : ℚ)
        * (ellipse_b pi s (((h : ℚ) * (w : ℚ)) * area_percent) : ℚ)
      ≤ ((h : ℚ) * (w : ℚ)) * area_percent ∧
    ((h : ℚ) * (w : ℚ)) * area_percent
      < pi * ((ellipse_a pi s (((h : ℚ) * (w : ℚ)) * area_percent) : ℚ) + 1)
        * ((ellipse_b pi s (((h : ℚ) * (w : ℚ)) * area_percent) : ℚ) + 2) := by
  set A : ℚ := ((h : ℚ) * (w : ℚ)) * area_percent with hA
  have hA0 : 0 ≤ A := by rw [hA]; positivity
  have hs1 : s ≤ 1 := by nlinarith [sq_nonneg ecc]
  set a := ellipse_a pi s A with haDef
  have has0 : (0 : ℚ) ≤ (a : ℚ) * s := by positivity
  have hbval : (ellipse_b pi s A : ℤ) = ⌊(a : ℚ) * s⌋ := by
    rw [ellipse_b, truncQ_of_nonneg _ has0]
    exact Int.toNat_of_nonneg (Int.floor_nonneg.mpr has0)
  set b := ellipse_b pi s A with hbDef
  have hb1 : (b : ℚ) ≤ (a : ℚ) * s := by
    have := Int.floor_le ((a : ℚ) * s)
    rw [← hbval] at this
    exact_mod_cast this
  have hb2 : (a : ℚ) * s < (b : ℚ) + 1 := by
    have := Int.lt_floor_add_one ((a : ℚ) * s)
    rw [← hbval] at this
    exact_mod_cast this
  have hba : b ≤ a := by
    have h1 : (b : ℚ) ≤ (a : ℚ) := le_trans hb1 (by nlinarith [Nat.cast_nonneg (α := ℚ) a])
    exact_mod_cast h1
  have hps : 0 < pi * s := mul_pos hpi hs
  have ha2 : ((a : ℕ) : ℚ) ^ 2 ≤ A / (pi * s) := floorSqrtQ_sq_le _ (by positivity)
  have ha3 : A / (pi * s) < (((a : ℕ) : ℚ) + 1) ^ 2 := lt_floorSqrtQ_succ_sq _
  refine ⟨hba, hb1, hb2, ?_, ?_⟩
  · calc pi * (a : ℚ) * (b : ℚ) ≤ pi * (a : ℚ) * ((a : ℚ) * s) := by
          apply mul_le_mul_of_nonneg_left hb1 (by positivity)
      _ = (pi * s) * ((a : ℚ) ^ 2) := by ring
      _ ≤ (pi * s) * (A / (pi * s)) := by
          apply mul_le_mul_of_nonneg_left ha2 (le_of_lt hps)
      _ = A := by field_simp
  · have hsa : s * ((a : ℚ) + 1) < (b : ℚ) + 2 := by nlinarith [Nat.cast_nonneg (α := ℚ) a]
    calc A = (pi * s) * (A / (pi * s)) := by field_simp
      _ < (pi * s) * (((a : ℚ) + 1) ^ 2) := by
          apply mul_lt_mul_of_pos_left ha3 hps
      _ = (pi * ((a : ℚ) + 1)) * (s * ((a : ℚ) + 1)) := by ring
      _ ≤ (pi * ((a : ℚ) + 1)) * ((b : ℚ) + 2) := by
          apply mul_le_mul_of_nonneg_left (le_of_lt hsa) (by positivity)
      _ = pi * ((a : ℚ) + 1) * ((b : ℚ) + 2) := by ring

/-- Claim C5 witness: pi 3, s 4/5 (eccentricity 3/5), area_percent 1/2 on
a 10 by 10 image. -/
theorem c5_radii_amended_witness :
    ellipse_b 3 (4 / 5) ((((10 : ℕ) : ℚ) * ((10 : ℕ) : ℚ)) * (1 / 2))
      ≤ ellipse_a 3 (4 / 5) ((((10 : ℕ) : ℚ) * ((10 : ℕ) : ℚ)) * (1 / 2)) ∧
    ((ellipse_b 3 (4 / 5) ((((10 : ℕ) : ℚ) * ((10 : ℕ) : ℚ)) * (1 / 2)) : ℕ) : ℚ)
      ≤ (ellipse_a 3 (4 / 5) ((((10 : ℕ) : ℚ) * ((10 : ℕ) : ℚ)) * (1 / 2)) : ℚ) * (4 / 5) ∧
    (ellipse_a 3 (4 / 5) ((((10 : ℕ) : ℚ) * ((10 : ℕ) : ℚ)) * (1 / 2)) : ℚ) * (4 / 5)
      < ((ellipse_b 3 (4 / 5) ((((10 : ℕ) : ℚ) * ((10 : ℕ) : ℚ)) * (1 / 2)) : ℕ) : ℚ) + 1 ∧
    3 * (ellipse_a 3 (4 / 5) ((((10 : ℕ) : ℚ) * ((10 : ℕ) : ℚ)) * (1 / 2)) : ℚ)
        * (ellipse_b 3 (4 / 5) ((((10 : ℕ) : ℚ) * ((10 : ℕ) : ℚ)) * (1 / 2)) : ℚ)
      ≤ (((10 : ℕ) : ℚ) * ((10 : ℕ) : ℚ)) * (1 / 2) ∧
    (((10 : ℕ) : ℚ) * ((10 : ℕ) : ℚ)) * (1 / 2)
      < 3 * ((ellipse_a 3 (4 / 5) ((((10 : ℕ) : ℚ) * ((10 : ℕ) : ℚ)) * (1 / 2)) : ℚ) + 1)
        * ((ellipse_b 3 (4 / 5) ((((10 : ℕ) : ℚ) * ((10 : ℕ) : ℚ)) * (1 / 2)) : ℚ) + 2) :=
  c5_radii_amended 10 10 (1 / 2) (3 / 5) (4 / 5) 3 (by norm_num) (by norm_num)
    (by norm_num) (by norm_num) (by norm_num) (by norm_num) (by norm_num)

/-- Claim C4, amended: whenever the derived margin fits strictly inside
each half-dimension (margin + 1 ≤ w/2 and h/2), the dimensions are at most
100000 pixels, and min(80 + b, max_feasible) is at least 4, the sampler
guarantees: the real offset draw lies between min(80 + b, max_feasible)
and max_feasible (clamped to the maximum when the minimum exceeds it, with
no error raised); the clamped integer center keeps the bounding extent
center plus or minus margin inside [0, w] times [0, h]; and the distance
of the integer center from the image center is at least
min(80 + b, max_feasible) - 2 (stated on squares) — the int() truncation
of the center coordinates can cost up to sqrt 2, so the bound of the claim
without that slack is false (see the counterexample). -/
theorem c4_center_sampling_amended (w h : ℕ) (ap s pi cos_r sin_r u : ℚ) (S : SamplerOut)
    (hS : S = sample_region w h ap s pi cos_r sin_r u)
    (htrig : cos_r ^ 2 + sin_r ^ 2 = 1) (hu0 : 0 ≤ u) (hu1 : u < 1)
    (hmw : S.margin + 1 ≤ w / 2) (hmh : S.margin + 1 ≤ h / 2)
    (hwb : w ≤ 100000) (hhb : h ≤ 100000)
    (hm4 : 4 ≤ min S.minD S.maxD) :
    (min S.minD S.maxD ≤ S.dist ∧ S.dist ≤ S.maxD)
    ∧ ((S.margin : ℤ) ≤ S.center_x ∧ S.center_x ≤ (w : ℤ) - (S.margin : ℤ)
      ∧ (S.margin : ℤ) ≤ S.center_y ∧ S.center_y ≤ (h : ℤ) - (S.margin : ℤ))
    ∧ (min S.minD S.maxD - 2) ^ 2
        ≤ ((S.center_x : ℚ) - ((w / 2 : ℕ) : ℚ)) ^ 2
          + ((S.center_y : ℚ) - ((h / 2 : ℕ) : ℚ)) ^ 2 := by
  subst hS
  simp only [sample_region] at hmw hmh hm4 ⊢
  set bN := ellipse_b pi s (((h : ℚ) * (w : ℚ)) * ap) with hbN
  set aN := ellipse_a pi s (((h : ℚ) * (w : ℚ)) * ap) with haN
  set M := max aN bN with hM
  set minD : ℚ := 80 + (bN : ℚ) with hminDdef
  set mdx := axis_max_dist w M (w / 2) cos_r with hmdx
  set mdy := axis_max_dist h M (h / 2) sin_r with hmdy
  set maxD := optAbsMin mdx mdy with hmaxDdef
  have hmaxD0 : 0 ≤ maxD := by rw [hmaxDdef]; exact optAbsMin_nonneg _ _
  have hminD0 : 0 < minD := by rw [hminDdef]; positivity
  obtain ⟨hd1, hd2, hd0⟩ := dist_draw_bounds minD maxD u hmaxD0 hminD0 hu0 hu1
  set dist := if maxD < minD then maxD else minD + u * (maxD - minD) with hdistdef
  have hm1x : (M : ℚ) + 1 ≤ ((w / 2 : ℕ) : ℚ) := by exact_mod_cast hmw
  have hm1y : (M : ℚ) + 1 ≤ ((h / 2 : ℕ) : ℚ) := by exact_mod_cast hmh
  have hm2x : ((w / 2 : ℕ) : ℚ) + (M : ℚ) + 1 ≤ (w : ℚ) := by
    have hn : w / 2 + M + 1 ≤ w := by omega
    exact_mod_cast hn
  have hm2y : ((h / 2 : ℕ) : ℚ) + (M : ℚ) + 1 ≤ (h : ℚ) := by
    have hn : h / 2 + M + 1 ≤ h := by omega
    exact_mod_cast hn
  have hom1x : (M : ℚ) ≤ ((h / 2 : ℕ) : ℚ) := by linarith
  have hom2x : ((h / 2 : ℕ) : ℚ) ≤ (h : ℚ) := by exact_mod_cast Nat.div_le_self h 2
  have hom1y : (M : ℚ) ≤ ((w / 2 : ℕ) : ℚ) := by linarith
  have hom2y : ((w / 2 : ℕ) : ℚ) ≤ (w : ℚ) := by exact_mod_cast Nat.div_le_self w 2
  have hbx : ∀ q, axis_max_dist w M (w / 2) cos_r = some q → maxD ≤ |q| := by
    intro q hq
    rw [← hmdx] at hq
    rw [hmaxDdef, hq]
    exact optAbsMin_le_left mdy q
  have hby : ∀ q, axis_max_dist h M (h / 2) sin_r = some q → maxD ≤ |q| := by
    intro q hq
    rw [← hmdy] at hq
    rw [hmaxDdef, hq]
    exact optAbsMin_le_right mdx q
  obtain ⟨hx1, hx2⟩ := axis_center_bounds w h M (w / 2) (h / 2) cos_r sin_r dist maxD
    htrig hd0 hd2 hm1x hm2x hom1x hom2x hbx hby (by exact_mod_cast hhb)
  obtain ⟨hy1, hy2⟩ := axis_center_bounds h w M (h / 2) (w / 2) sin_r cos_r dist maxD
    (by linarith) hd0 hd2 hm1y hm2y hom1y hom2y hby hbx (by exact_mod_cast hwb)
  obtain ⟨hcxeq, hcxlo, hcxhi⟩ :=
    truncQ_clip_int (((w / 2 : ℕ) : ℚ) + dist * cos_r) M w hx1 hx2
  obtain ⟨hcyeq, hcylo, hcyhi⟩ :=
    truncQ_clip_int (((h / 2 : ℕ) : ℚ) + dist * sin_r) M h hy1 hy2
  rw [hcxeq, hcyeq]
  have hfx : ⌊((w / 2 : ℕ) : ℚ) + dist * cos_r⌋ = ((w / 2 : ℕ) : ℤ) + ⌊dist * cos_r⌋ := by
    rw [show ((w / 2 : ℕ) : ℚ) + dist * cos_r
        = dist * cos_r + (((w / 2 : ℕ) : ℤ) : ℚ) by rw [Int.cast_natCast]; ring,
      Int.floor_add_int]
    ring
  have hfy : ⌊((h / 2 : ℕ) : ℚ) + dist * sin_r⌋ = ((h / 2 : ℕ) : ℤ) + ⌊dist * sin_r⌋ := by
    rw [show ((h / 2 : ℕ) : ℚ) + dist * sin_r
        = dist * sin_r + (((h / 2 : ℕ) : ℤ) : ℚ) by rw [Int.cast_natCast]; ring,
      Int.floor_add_int]
    ring
  refine ⟨⟨hd1, hd2⟩, ⟨hcxlo, hcxhi, hcylo, hcyhi⟩, ?_⟩
  have hE : (dist * cos_r) ^ 2 + (dist * sin_r) ^ 2 = dist ^ 2 := by
    linear_combination dist ^ 2 * htrig
  have habs : |dist * cos_r| + |dist * sin_r| ≤ 3 / 2 * dist := by
    rw [abs_mul, abs_mul, abs_of_nonneg hd0]
    have h9 := abs_cos_add_abs_sin_le cos_r sin_r htrig
    nlinarith
  have hkey := dist_sq_lower (dist * cos_r) (dist * sin_r) dist (min minD maxD)
    hE habs hd1 hm4
  rw [hfx, hfy]
  have hsimpx : ((((w / 2 : ℕ) : ℤ) + ⌊dist * cos_r⌋ : ℤ) : ℚ) - ((w / 2 : ℕ) : ℚ)
      = ((⌊dist * cos_r⌋ : ℤ) : ℚ) := by rw [Int.cast_add, Int.cast_natCast]; ring
  have hsimpy : ((((h / 2 : ℕ) : ℤ) + ⌊dist * sin_r⌋ : ℤ) : ℚ) - ((h / 2 : ℕ) : ℚ)
      = ((⌊dist * sin_r⌋ : ℤ) : ℚ) := by rw [Int.cast_add, Int.cast_natCast]; ring
  rw [hsimpx, hsimpy]
  exact hkey

lemma ellipse_a_eval25 : ellipse_a np_pi (4 / 5) 25 = 3 := by
  unfold ellipse_a
  apply floorSqrtQ_eval _ 3 ?_ ?_
  · rw [le_div_iff₀ (by norm_num [np_pi] : (0 : ℚ) < np_pi * (4 / 5))]
    norm_num [np_pi]
  · rw [div_lt_iff₀ (by norm_num [np_pi] : (0 : ℚ) < np_pi * (4 / 5))]
    norm_num [np_pi]

lemma ellipse_b_eval25 : ellipse_b np_pi (4 / 5) 25 = 2 := by
  unfold ellipse_b
  rw [ellipse_a_eval25]
  norm_num [truncQ]
  decide

/-- Full evaluation of the sampler at the concrete draw used by the C4
counterexample and witness: a 1000 by 1000 image, area_percent 1/40000
(target area 25), eccentricity 3/5, direction (3/5, 4/5), offset draw at
the low end (u = 0).  The derived ellipse has a = 3, b = 2, margin 3,
minimum offset 82, feasibility bound 2485/4, drawn offset 82, and the
truncated clamped center is (549, 565). -/
lemma sample_region_eval :
    sample_region 1000 1000 (1 / 40000) (4 / 5) np_pi (3 / 5) (4 / 5) 0
      = ⟨3, 2, 3, 82, 2485 / 4, 82, 549, 565⟩ := by
  have hA : (((1000 : ℕ) : ℚ) * ((1000 : ℕ) : ℚ)) * (1 / 40000) = (25 : ℚ) := by norm_num
  simp only [sample_region, hA, ellipse_a_eval25, ellipse_b_eval25]
  norm_num [axis_max_dist, optAbsMin, npClipInt, truncQ, abs_of_nonneg, min_def, max_def]

/-- Claim C4, counterexample to the claim as stated: at the concrete draw
of sample_region_eval the center (549, 565) has squared distance
49^2 + 65^2 = 6626 from the image center (500, 500), strictly less than
min(80 + b, max_feasible)^2 = 82^2 = 6724: the int() truncation of the
center coordinates drops the distance below the claimed minimum. -/
theorem c4_center_distance_counterexample :
    (sample_region 1000 1000 (1 / 40000) (4 / 5) np_pi (3 / 5) (4 / 5) 0).center_x = 549 ∧
    (sample_region 1000 1000 (1 / 40000) (4 / 5) np_pi (3 / 5) (4 / 5) 0).center_y = 565 ∧
    min (sample_region 1000 1000 (1 / 40000) (4 / 5) np_pi (3 / 5) (4 / 5) 0).minD
      (sample_region 1000 1000 (1 / 40000) (4 / 5) np_pi (3 / 5) (4 / 5) 0).maxD = 82 ∧
    0 ≤ min (sample_region 1000 1000 (1 / 40000) (4 / 5) np_pi (3 / 5) (4 / 5) 0).minD
      (sample_region 1000 1000 (1 / 40000) (4 / 5) np_pi (3 / 5) (4 / 5) 0).maxD ∧
    (((sample_region 1000 1000 (1 / 40000) (4 / 5) np_pi (3 / 5) (4 / 5) 0).center_x : ℚ)
          - ((1000 / 2 : ℕ) : ℚ)) ^ 2
        + (((sample_region 1000 1000 (1 / 40000) (4 / 5) np_pi (3 / 5) (4 / 5) 0).center_y : ℚ)
          - ((1000 / 2 : ℕ) : ℚ)) ^ 2
      < (min (sample_region 1000 1000 (1 / 40000) (4 / 5) np_pi (3 / 5) (4 / 5) 0).minD
          (sample_region 1000 1000 (1 / 40000) (4 / 5) np_pi (3 / 5) (4 / 5) 0).maxD) ^ 2 := by
  rw [sample_region_eval]
  norm_num

/-- Claim C4 witness: the amended bounds hold at the same concrete draw:
the offset 82 lies in [min(82, 2485/4), 2485/4], the center (549, 565)
keeps margin 3 inside the image, and its squared distance 6626 from the
image center is at least (82 - 2)^2 = 6400. -/
theorem c4_center_sampling_amended_witness :
    (min (82 : ℚ) (2485 / 4) ≤ (82 : ℚ) ∧ (82 : ℚ) ≤ 2485 / 4)
    ∧ (((3 : ℕ) : ℤ) ≤ (549 : ℤ) ∧ (549 : ℤ) ≤ (1000 : ℤ) - ((3 : ℕ) : ℤ)
      ∧ ((3 : ℕ) : ℤ) ≤ (565 : ℤ) ∧ (565 : ℤ) ≤ (1000 : ℤ) - ((3 : ℕ) : ℤ))
    ∧ (min (82 : ℚ) (2485 / 4) - 2) ^ 2
        ≤ (((549 : ℤ) : ℚ) - ((1000 / 2 : ℕ) : ℚ)) ^ 2
          + (((565 : ℤ) : ℚ) - ((1000 / 2 : ℕ) : ℚ)) ^ 2 :=
  c4_center_sampling_amended 1000 1000 (1 / 40000) (4 / 5) np_pi (3 / 5) (4 / 5) 0
    ⟨3, 2, 3, 82, 2485 / 4, 82, 549, 565⟩ sample_region_eval.symm
    (by norm_num) (by norm_num) (by norm_num)
    (by decide) (by decide) (by decide) (by decide)
    (by norm_num)

end FPT
